import Mathlib

/-!
Verification of the parameter checkpoint store specified for the
`Python-Dev` repository (notebook `ML/Save and load models.ipynb`).

The notebook itself only calls an external framework's checkpoint
mechanism (`Model.save_weights`, `Model.load_weights`,
`tf.train.latest_checkpoint`, `ModelCheckpoint`); the checkpoint store
that the specification describes is not implemented inside the
repository.  Following the specification, the store is modelled here as
an executable state machine: blobs are written to fresh locations keyed
by sequence index, the index update is the last (atomic) step of a save,
retention eviction removes both the blob and the index entry, and
`list`/`load` read only through the committed index.  The model factory
`create_model` is translated directly from the notebook source.

Tensors are modelled with integer entries: every representable value is
a concrete finite number, and equality of parameter mappings is list
equality (same keys, same shapes, same values, same order).
-/

/-- Parameter keys are strings (e.g. `dense/kernel`). -/
abbrev ParamKey := String

/-- Modelled from the spec: a concrete tensor value, a shape together
with finite numeric entries (`parameter_blob` stores one per parameter
key). -/
structure Tensor where
  shape : List Nat
  values : List Int
  deriving DecidableEq, Repr

/-- A parameter mapping: an ordered association of parameter keys to
tensor values, as handed over by `get_parameters`. -/
abbrev Params := List (ParamKey × Tensor)

/-- Modelled from the spec: the architecture signature of a parameter
mapping, i.e. its parameter keys together with each parameter's shape. -/
def archSignature (p : Params) : List (ParamKey × List Nat) :=
  p.map (fun kv => (kv.1, kv.2.shape))

/-- The parameter keys of a mapping. -/
def paramKeys (p : Params) : List ParamKey :=
  p.map Prod.fst

/-- The shape recorded for key `k`, if any. -/
def shapeOf (p : Params) (k : ParamKey) : Option (List Nat) :=
  ((archSignature p).find? (fun ks => ks.1 == k)).map (fun ks => ks.2)

/-- The premise of the architecture-mismatch rule: the parameter key
sets differ, or some shared key carries two different shapes. -/
def sigDiffers (b t : Params) : Prop :=
  (∃ k, k ∈ paramKeys b ∧ k ∉ paramKeys t) ∨
  (∃ k, k ∈ paramKeys t ∧ k ∉ paramKeys b) ∨
  (∃ k u v, shapeOf b k = some u ∧ shapeOf t k = some v ∧ u ≠ v)

/-- Modelled from the spec: the four discriminable error kinds of the
checkpoint store. -/
inductive StoreError where
  | invalidParameters
  | ioFailure
  | snapshotNotFound (name : String)
  | architectureMismatch (expected actual : List (ParamKey × List Nat))
  deriving DecidableEq, Repr

/-- Modelled from the spec: one entry of the `CheckpointIndex`, the
snapshot's name and its creation sequence index (which is also the
location of its blob). -/
structure IndexEntry where
  name : String
  seqIndex : Nat
  deriving DecidableEq, Repr

/-- Modelled from the spec: the durable state of a `CheckpointStore`:
the configured `RetentionPolicy` bound (`none` keeps everything), the
blob files keyed by their location, the committed index ordered by
ascending sequence index, the "latest" pointer, and the next sequence
index to hand out. -/
structure CheckpointStore where
  maxKept : Option Nat
  blobs : List (Nat × Params)
  index : List IndexEntry
  latestName : Option String
  nextSeq : Nat
  deriving DecidableEq, Repr

/-- Modelled from the spec: `list()` returns snapshot metadata only, in
ascending sequence-index order. -/
def CheckpointStore.list (s : CheckpointStore) : List IndexEntry :=
  s.index

/-- A fresh store with the given retention bound; sequence indices start
at 1. -/
def emptyStore (policy : Option Nat) : CheckpointStore :=
  ⟨policy, [], [], none, 1⟩

/-- Modelled from the spec: `save` rejects empty parameter mappings
(non-finite values are unrepresentable in this model). -/
def validParams (p : Params) : Bool :=
  !p.isEmpty

/-- Modelled from the spec: first phase of a save, the blob is fully
written to a fresh final location; the index is not yet touched, so the
snapshot is still `Pending`. -/
def writeBlob (s : CheckpointStore) (p : Params) : CheckpointStore :=
  { s with blobs := (s.nextSeq, p) :: s.blobs }

/-- How many index entries the retention policy keeps out of `n`. -/
def keepCount (policy : Option Nat) (n : Nat) : Nat :=
  match policy with
  | none => n
  | some k => min k n

/-- The committed index with any snapshot of the given name removed
(overwrite is last-write-wins). -/
def replacedIndex (s : CheckpointStore) (n : String) : List IndexEntry :=
  s.index.filter (fun e => !(e.name == n))

/-- The index after committing a save of name `n`: the overwritten entry
is dropped, the new entry is appended, and the oldest entries beyond the
retention bound are evicted. -/
def newIndex (s : CheckpointStore) (n : String) : List IndexEntry :=
  let idx1 := replacedIndex s n ++ [⟨n, s.nextSeq⟩]
  idx1.drop (idx1.length - keepCount s.maxKept idx1.length)

/-- Blob locations that lose their index entry in this commit (the
overwritten snapshot and the evicted ones). -/
def goneSeqs (s : CheckpointStore) (n : String) : List Nat :=
  (s.index.map (fun e => e.seqIndex)).filter
    (fun q => !(decide (q ∈ (newIndex s n).map (fun e => e.seqIndex))))

/-- Modelled from the spec: second phase of a save; the index update,
the latest-pointer update and the eviction of stale blobs happen in one
atomic step. -/
def commitIndex (s : CheckpointStore) (n : String) : CheckpointStore :=
  { s with
    index := newIndex s n
    blobs := s.blobs.filter (fun b => !(decide (b.1 ∈ goneSeqs s n)))
    latestName := some n
    nextSeq := s.nextSeq + 1 }

/-- Modelled from the spec: `save(parameters, name)` validates the
parameters, writes the blob to its final location, and only then updates
the index; it returns the new snapshot's metadata. -/
def save (s : CheckpointStore) (p : Params) (n : String) :
    Except StoreError (CheckpointStore × IndexEntry) :=
  if validParams p then
    .ok (commitIndex (writeBlob s p) n, ⟨n, s.nextSeq⟩)
  else
    .error .invalidParameters

/-- Modelled from the spec: a save interrupted after the blob write but
before the index update — the crash-consistency scenario.  The blob is
on disk but no index entry refers to it. -/
def interruptedSave (s : CheckpointStore) (p : Params) : CheckpointStore :=
  writeBlob s p

/-- Look up a name in the committed index. -/
def findEntry (s : CheckpointStore) (n : String) : Option IndexEntry :=
  s.index.find? (fun e => e.name == n)

/-- Fetch the blob stored at a location (most recent write wins). -/
def lookupBlob (s : CheckpointStore) (loc : Nat) : Option Params :=
  (s.blobs.find? (fun b => b.1 == loc)).map (fun b => b.2)

/-- Modelled from the spec: the argument of `load` — either an explicit
snapshot name or the "latest" sentinel. -/
inductive SnapshotRef where
  | byName (n : String)
  | latest
  deriving DecidableEq, Repr

/-- Resolve a snapshot reference to a name via the latest pointer. -/
def resolveRef (s : CheckpointStore) : SnapshotRef → Option String
  | .byName n => some n
  | .latest => s.latestName

/-- Modelled from the spec: `load(name_or_latest)` resolves the name,
consults only the committed index, and returns the deserialized
parameter mapping; missing names fail with `snapshotNotFound`. -/
def load (s : CheckpointStore) (r : SnapshotRef) : Except StoreError Params :=
  match resolveRef s r with
  | none => .error (.snapshotNotFound "latest")
  | some n =>
    match findEntry s n with
    | none => .error (.snapshotNotFound n)
    | some e =>
      match lookupBlob s e.seqIndex with
      | none => .error .ioFailure
      | some p => .ok p

/-- The name of the newest (last) entry of an ascending index, used to
repair the latest pointer after a deletion. -/
def newestName : List IndexEntry → Option String
  | [] => none
  | [e] => some e.name
  | _ :: rest => newestName rest

/-- Modelled from the spec: `delete(name)` removes the snapshot's blob
and its index entry and repairs the latest pointer; deleting an absent
name is a no-op, not an error. -/
def delete (s : CheckpointStore) (n : String) : CheckpointStore :=
  match findEntry s n with
  | none => s
  | some d =>
    let idx := s.index.filter (fun e => !(e.name == n))
    { s with
      index := idx
      blobs := s.blobs.filter (fun b => !(b.1 == d.seqIndex))
      latestName := if s.latestName = some n then newestName idx else s.latestName }

/-- Modelled from the spec: applying a blob to a target model checks the
architecture signature before any value is applied; on mismatch the
target is returned entirely unchanged together with the error. -/
def apply_weights (blob target : Params) : Params × Option StoreError :=
  if archSignature blob = archSignature target then
    (blob, none)
  else
    (target, some (.architectureMismatch (archSignature blob) (archSignature target)))

/-- The world seen by the training loop: the store plus the target
model's current parameters. -/
structure World where
  store : CheckpointStore
  model : Params
  deriving DecidableEq, Repr

/-- Modelled from the spec: `load` followed by `set_parameters` on the
target model; the store is only read. -/
def restoreW (w : World) (r : SnapshotRef) : World × Option StoreError :=
  match load w.store r with
  | .error e => (w, some e)
  | .ok blob =>
    let res := apply_weights blob w.model
    ({ store := w.store, model := res.1 }, res.2)

/-- A sane retention configuration: if a bound is configured it keeps at
least one snapshot. -/
def retentionPos (s : CheckpointStore) : Prop :=
  ∀ k, s.maxKept = some k → 0 < k

/-- Store states reachable from a fresh store by saves (also interrupted
ones) and deletions; `load` and `list` do not change the store. -/
inductive Reachable : CheckpointStore → Prop where
  | init (policy : Option Nat) : Reachable (emptyStore policy)
  | save_ok {s s' : CheckpointStore} {p : Params} {n : String} {e : IndexEntry} :
      Reachable s → save s p n = .ok (s', e) → Reachable s'
  | delete_step {s : CheckpointStore} (n : String) :
      Reachable s → Reachable (delete s n)
  | interrupt {s : CheckpointStore} (p : Params) :
      Reachable s → Reachable (interruptedSave s p)

/-- The structural invariants of a store: the index is strictly
ascending in sequence index, all sequence indices are below the next one
to be issued, snapshot names are unique, and every committed entry's
blob is present on disk. -/
structure StoreInv (s : CheckpointStore) : Prop where
  sorted : s.index.Pairwise (fun a b => a.seqIndex < b.seqIndex)
  bounded : ∀ e ∈ s.index, e.seqIndex < s.nextSeq
  names : (s.index.map (fun e => e.name)).Nodup
  blob_present : ∀ e ∈ s.index, (lookupBlob s e.seqIndex).isSome = true

/-- The latest-pointer invariant: the pointer is `none` exactly on an
empty index, and otherwise names a present entry of maximal sequence
index. -/
def LatestOk (s : CheckpointStore) : Prop :=
  (s.latestName = none → s.index = []) ∧
  (∀ n, s.latestName = some n →
    ∃ e, e ∈ s.index ∧ e.name = n ∧ ∀ e2 ∈ s.index, e2.seqIndex ≤ e.seqIndex)

/-- Run a sequence of saves (name, parameters) against a store; a failed
save leaves the store unchanged. -/
def saveRun (s : CheckpointStore) : List (String × Params) → CheckpointStore
  | [] => s
  | r :: rs =>
    match save s r.2 r.1 with
    | .ok (s', _) => saveRun s' rs
    | .error _ => saveRun s rs

/-- The index entries a run of saves creates when it starts at sequence
index `i`: the j-th save of the run gets sequence index `i + j`. -/
def entriesFrom (i : Nat) : List (String × Params) → List IndexEntry
  | [] => []
  | r :: rs => ⟨r.1, i⟩ :: entriesFrom (i + 1) rs

/-- Translated from the notebook source (`create_model`): a sequential
model of Dense(512, relu, input 784), Dropout(0.2), Dense(10).  The two
Dense layers contribute kernel and bias parameters; Dropout has none.
The source initializes the weight values randomly, which is modelled by
the `seed` argument; the architecture does not depend on it. -/
def create_model (seed : Int) : Params :=
  [("dense/kernel", ⟨[784, 512], List.replicate (784 * 512) seed⟩),
   ("dense/bias", ⟨[512], List.replicate 512 0⟩),
   ("dense_1/kernel", ⟨[512, 10], List.replicate (512 * 10) seed⟩),
   ("dense_1/bias", ⟨[10], List.replicate 10 0⟩)]

/-- Total number of scalar parameters of an architecture signature. -/
def archParamCount (sig : List (ParamKey × List Nat)) : Nat :=
  (sig.map (fun ks => ks.2.foldl (fun a b => a * b) 1)).sum

/-! ### Basic unfolding lemmas -/

lemma writeBlob_index (s : CheckpointStore) (p : Params) : (writeBlob s p).index = s.index := rfl

lemma writeBlob_nextSeq (s : CheckpointStore) (p : Params) : (writeBlob s p).nextSeq = s.nextSeq := rfl

lemma writeBlob_maxKept (s : CheckpointStore) (p : Params) : (writeBlob s p).maxKept = s.maxKept := rfl

lemma newIndex_writeBlob (s : CheckpointStore) (p : Params) (n : String) :
    newIndex (writeBlob s p) n = newIndex s n := rfl

lemma replacedIndex_writeBlob (s : CheckpointStore) (p : Params) (n : String) :
    replacedIndex (writeBlob s p) n = replacedIndex s n := rfl

lemma goneSeqs_writeBlob (s : CheckpointStore) (p : Params) (n : String) :
    goneSeqs (writeBlob s p) n = goneSeqs s n := rfl

lemma commitIndex_index (s : CheckpointStore) (n : String) :
    (commitIndex s n).index = newIndex s n := rfl

lemma commitIndex_nextSeq (s : CheckpointStore) (n : String) :
    (commitIndex s n).nextSeq = s.nextSeq + 1 := rfl

lemma commitIndex_latestName (s : CheckpointStore) (n : String) :
    (commitIndex s n).latestName = some n := rfl

lemma commitIndex_maxKept (s : CheckpointStore) (n : String) :
    (commitIndex s n).maxKept = s.maxKept := rfl

lemma commitIndex_blobs (s : CheckpointStore) (n : String) :
    (commitIndex s n).blobs = s.blobs.filter (fun b => !(decide (b.1 ∈ goneSeqs s n))) := rfl

lemma save_ok_elim {s s' : CheckpointStore} {p : Params} {n : String} {e : IndexEntry}
    (h : save s p n = .ok (s', e)) :
    validParams p = true ∧ s' = commitIndex (writeBlob s p) n ∧ e = ⟨n, s.nextSeq⟩ := by
  unfold save at h
  by_cases hv : validParams p = true
  · rw [if_pos hv] at h
    simp only [Except.ok.injEq, Prod.mk.injEq] at h
    exact ⟨hv, h.1.symm, h.2.symm⟩
  · rw [if_neg hv] at h
    exact absurd h (by simp)

/-! ### Membership characterizations -/

lemma mem_replacedIndex {s : CheckpointStore} {n : String} {e : IndexEntry} :
    e ∈ replacedIndex s n ↔ e ∈ s.index ∧ e.name ≠ n := by
  simp [replacedIndex, List.mem_filter]

lemma mem_goneSeqs {s : CheckpointStore} {n : String} {q : Nat} :
    q ∈ goneSeqs s n ↔
      q ∈ s.index.map (fun e => e.seqIndex) ∧
      q ∉ (newIndex s n).map (fun e => e.seqIndex) := by
  simp [goneSeqs, List.mem_filter]

lemma goneSeqs_lt {s : CheckpointStore} {n : String} {q : Nat}
    (inv : StoreInv s) (h : q ∈ goneSeqs s n) : q < s.nextSeq := by
  obtain ⟨h1, _⟩ := mem_goneSeqs.mp h
  simp only [List.mem_map] at h1
  obtain ⟨e, he, hq⟩ := h1
  exact hq ▸ inv.bounded e he

/-! ### Decomposing the committed index -/

lemma keepDropBound (s : CheckpointStore) (m : Nat) (hpol : retentionPos s) :
    m + 1 - keepCount s.maxKept (m + 1) ≤ m := by
  cases h : s.maxKept with
  | none => simp only [keepCount]; omega
  | some k =>
    have hk := hpol k h
    simp only [keepCount]
    omega

lemma newIndex_eq_drop (s : CheckpointStore) (n : String) :
    newIndex s n = (replacedIndex s n ++ [(⟨n, s.nextSeq⟩ : IndexEntry)]).drop
      ((replacedIndex s n).length + 1 -
        keepCount s.maxKept ((replacedIndex s n).length + 1)) := by
  simp [newIndex, List.length_append]

lemma newIndex_decomp (s : CheckpointStore) (n : String) (hpol : retentionPos s) :
    newIndex s n =
      (replacedIndex s n).drop
        ((replacedIndex s n).length + 1 -
          keepCount s.maxKept ((replacedIndex s n).length + 1)) ++
      [(⟨n, s.nextSeq⟩ : IndexEntry)] := by
  rw [newIndex_eq_drop,
    List.drop_append_of_le_length (keepDropBound s (replacedIndex s n).length hpol)]

lemma newIndex_subset_idx1 {s : CheckpointStore} {n : String} {e : IndexEntry}
    (h : e ∈ newIndex s n) : e ∈ replacedIndex s n ++ [(⟨n, s.nextSeq⟩ : IndexEntry)] := by
  rw [newIndex_eq_drop] at h
  exact List.drop_subset _ _ h

/-! ### Auxiliary list lemmas -/

lemma find?_append_left_none {α : Type} (p : α → Bool) (l1 l2 : List α)
    (h : ∀ a ∈ l1, p a = false) : (l1 ++ l2).find? p = l2.find? p := by
  induction l1 with
  | nil => rfl
  | cons a t ih =>
    have hneg : ¬ p a = true := by simp [h a (List.mem_cons_self a t)]
    rw [List.cons_append, List.find?_cons_of_neg _ hneg]
    exact ih fun x hx => h x (List.mem_cons_of_mem a hx)

lemma seq_inj_of_sorted {l : List IndexEntry}
    (hs : l.Pairwise (fun a b => a.seqIndex < b.seqIndex)) :
    ∀ a ∈ l, ∀ b ∈ l, a.seqIndex = b.seqIndex → a = b := by
  have hne : l.Pairwise (fun a b => a.seqIndex ≠ b.seqIndex) :=
    hs.imp (fun h => Nat.ne_of_lt h)
  intro a ha b hb heq
  by_contra hab
  exact (hne.forall (fun x y hxy => Ne.symm hxy) ha hb hab) heq

/-! ### Lemmas about `entriesFrom` -/

lemma entriesFrom_length (i : Nat) (rs : List (String × Params)) :
    (entriesFrom i rs).length = rs.length := by
  induction rs generalizing i with
  | nil => rfl
  | cons r t ih => simp [entriesFrom, ih]

lemma entriesFrom_append (i : Nat) (rs : List (String × Params)) (r : String × Params) :
    entriesFrom i (rs ++ [r]) = entriesFrom i rs ++ [⟨r.1, i + rs.length⟩] := by
  induction rs generalizing i with
  | nil => simp [entriesFrom]
  | cons a t ih =>
    show (⟨a.1, i⟩ : IndexEntry) :: entriesFrom (i + 1) (t ++ [r]) =
        (⟨a.1, i⟩ : IndexEntry) ::
          (entriesFrom (i + 1) t ++ [(⟨r.1, i + (t.length + 1)⟩ : IndexEntry)])
    rw [ih (i + 1)]
    have harith : i + 1 + t.length = i + (t.length + 1) := by omega
    rw [harith]

lemma entriesFrom_names (i : Nat) (rs : List (String × Params)) :
    (entriesFrom i rs).map (fun e => e.name) = rs.map Prod.fst := by
  induction rs generalizing i with
  | nil => rfl
  | cons r t ih => simp [entriesFrom, ih]

lemma entriesFrom_drop (d i : Nat) (rs : List (String × Params)) :
    (entriesFrom i rs).drop d = entriesFrom (i + d) (rs.drop d) := by
  induction d generalizing i rs with
  | zero => simp
  | succ d ih =>
    cases rs with
    | nil => simp [entriesFrom]
    | cons a t =>
      show (entriesFrom (i + 1) t).drop d = entriesFrom (i + (d + 1)) (t.drop d)
      rw [ih (i + 1) t]
      congr 1
      omega

lemma mem_entriesFrom_seq_ge {i : Nat} {rs : List (String × Params)} {e : IndexEntry}
    (h : e ∈ entriesFrom i rs) : i ≤ e.seqIndex := by
  induction rs generalizing i with
  | nil => simp [entriesFrom] at h
  | cons a t ih =>
    simp only [entriesFrom, List.mem_cons] at h
    rcases h with h | h
    · subst h; exact le_refl _
    · have := ih h; omega

/-! ### Lemmas about `newestName` -/

lemma newestName_eq_none_iff (l : List IndexEntry) : newestName l = none ↔ l = [] := by
  induction l with
  | nil => simp [newestName]
  | cons a t ih =>
    cases t with
    | nil => simp [newestName]
    | cons b t2 =>
      have h : newestName (a :: b :: t2) = newestName (b :: t2) := rfl
      rw [h, ih]
      simp

lemma newestName_spec {l : List IndexEntry}
    (hs : l.Pairwise (fun a b => a.seqIndex < b.seqIndex)) {m : String}
    (hm : newestName l = some m) :
    ∃ e, e ∈ l ∧ e.name = m ∧ ∀ e2 ∈ l, e2.seqIndex ≤ e.seqIndex := by
  induction l with
  | nil => simp [newestName] at hm
  | cons a t ih =>
    cases t with
    | nil =>
      have hname : a.name = m := by simpa [newestName] using hm
      refine ⟨a, List.mem_cons_self a [], hname, ?_⟩
      intro e2 he2
      simp only [List.mem_cons, List.not_mem_nil, or_false] at he2
      subst he2
      exact le_refl _
    | cons b t2 =>
      have hrec : newestName (a :: b :: t2) = newestName (b :: t2) := rfl
      rw [hrec] at hm
      have hs2 : (b :: t2).Pairwise (fun a b => a.seqIndex < b.seqIndex) :=
        (List.pairwise_cons.mp hs).2
      obtain ⟨e, he, hname, hmax⟩ := ih hs2 hm
      refine ⟨e, List.mem_cons_of_mem a he, hname, ?_⟩
      intro e2 he2
      rcases List.mem_cons.mp he2 with h | h
      · subst h
        have := (List.pairwise_cons.mp hs).1 e he
        omega
      · exact hmax e2 h

/-! ### The structural invariant holds in every reachable state -/

lemma lookupBlob_isSome {s : CheckpointStore} {loc : Nat} :
    (lookupBlob s loc).isSome = true ↔ ∃ b ∈ s.blobs, b.1 = loc := by
  simp [lookupBlob, List.find?_isSome]

lemma inv_empty (policy : Option Nat) : StoreInv (emptyStore policy) := by
  constructor
  · exact List.Pairwise.nil
  · intro e he; simp [emptyStore] at he
  · simp [emptyStore]
  · intro e he; simp [emptyStore] at he

lemma idx1_pairwise {s : CheckpointStore} (inv : StoreInv s) (n : String) :
    (replacedIndex s n ++ [(⟨n, s.nextSeq⟩ : IndexEntry)]).Pairwise
      (fun a b => a.seqIndex < b.seqIndex) := by
  refine List.pairwise_append.mpr ⟨List.Pairwise.sublist (List.filter_sublist _) inv.sorted,
    by simp, ?_⟩
  intro a ha b hb
  simp only [List.mem_singleton] at hb
  subst hb
  exact inv.bounded a (mem_replacedIndex.mp ha).1

lemma inv_save {s s' : CheckpointStore} {p : Params} {n : String} {e : IndexEntry}
    (inv : StoreInv s) (h : save s p n = .ok (s', e)) : StoreInv s' := by
  obtain ⟨hv, hs', -⟩ := save_ok_elim h
  subst hs'
  have hidx : (commitIndex (writeBlob s p) n).index = newIndex s n := rfl
  have hsub : List.Sublist (newIndex s n)
      (replacedIndex s n ++ [(⟨n, s.nextSeq⟩ : IndexEntry)]) := by
    rw [newIndex_eq_drop]; exact List.drop_sublist _ _
  constructor
  · rw [hidx]
    exact List.Pairwise.sublist hsub (idx1_pairwise inv n)
  · intro e2 he2
    rw [hidx] at he2
    rcases List.mem_append.mp (newIndex_subset_idx1 he2) with hm | hm
    · have := inv.bounded e2 (mem_replacedIndex.mp hm).1
      show e2.seqIndex < s.nextSeq + 1
      omega
    · simp only [List.mem_singleton] at hm
      subst hm
      show s.nextSeq < s.nextSeq + 1
      omega
  · rw [hidx]
    refine List.Nodup.sublist (hsub.map _) ?_
    rw [List.map_append]
    refine List.nodup_append.mpr ⟨List.Nodup.sublist ((List.filter_sublist _).map _) inv.names,
      by simp, ?_⟩
    intro x hx hx2
    simp only [List.map_cons, List.map_nil, List.mem_singleton] at hx2
    subst hx2
    obtain ⟨e3, he3, he3n⟩ := List.mem_map.mp hx
    exact (mem_replacedIndex.mp he3).2 he3n
  · intro e2 he2
    rw [hidx] at he2
    have hnot_gone : e2.seqIndex ∉ goneSeqs s n := by
      intro hg
      exact (mem_goneSeqs.mp hg).2 (List.mem_map.mpr ⟨e2, he2, rfl⟩)
    rw [lookupBlob_isSome]
    show ∃ b ∈ ((s.nextSeq, p) :: s.blobs).filter
      (fun b => !(decide (b.1 ∈ goneSeqs s n))), b.1 = e2.seqIndex
    rcases List.mem_append.mp (newIndex_subset_idx1 he2) with hm | hm
    · have hold := (lookupBlob_isSome (s := s)).mp
        (inv.blob_present e2 (mem_replacedIndex.mp hm).1)
      obtain ⟨b, hb, hbeq⟩ := hold
      refine ⟨b, List.mem_filter.mpr ⟨List.mem_cons_of_mem _ hb, ?_⟩, hbeq⟩
      rw [hbeq]
      simp [hnot_gone]
    · simp only [List.mem_singleton] at hm
      subst hm
      refine ⟨(s.nextSeq, p), List.mem_filter.mpr ⟨List.mem_cons_self _ _, ?_⟩, rfl⟩
      simpa using hnot_gone

lemma findEntry_mem {s : CheckpointStore} {n : String} {d : IndexEntry}
    (h : findEntry s n = some d) : d ∈ s.index :=
  List.mem_of_find?_eq_some h

lemma findEntry_name {s : CheckpointStore} {n : String} {d : IndexEntry}
    (h : findEntry s n = some d) : d.name = n := by
  unfold findEntry at h
  have := List.find?_some h
  simpa using this

lemma inv_delete {s : CheckpointStore} (inv : StoreInv s) (n : String) :
    StoreInv (delete s n) := by
  unfold delete
  cases hf : findEntry s n with
  | none => exact inv
  | some d =>
    have hd_mem : d ∈ s.index := findEntry_mem hf
    have hd_name : d.name = n := findEntry_name hf
    constructor
    · exact List.Pairwise.sublist (List.filter_sublist _) inv.sorted
    · intro e he
      exact inv.bounded e (List.mem_filter.mp he).1
    · exact List.Nodup.sublist ((List.filter_sublist _).map _) inv.names
    · intro e he
      have he_idx : e ∈ s.index := (List.mem_filter.mp he).1
      have he_name : e.name ≠ n := by
        have := (List.mem_filter.mp he).2
        simpa using this
      have hseq_ne : e.seqIndex ≠ d.seqIndex := by
        intro hseq
        have : e = d := seq_inj_of_sorted inv.sorted e he_idx d hd_mem hseq
        exact he_name (this ▸ hd_name)
      obtain ⟨b, hb, hbeq⟩ := lookupBlob_isSome.mp (inv.blob_present e he_idx)
      rw [lookupBlob_isSome]
      refine ⟨b, List.mem_filter.mpr ⟨hb, ?_⟩, hbeq⟩
      rw [hbeq]
      simp [hseq_ne]

lemma inv_interrupt {s : CheckpointStore} (inv : StoreInv s) (p : Params) :
    StoreInv (interruptedSave s p) := by
  constructor
  · exact inv.sorted
  · exact fun e he => inv.bounded e he
  · exact inv.names
  · intro e he
    obtain ⟨b, hb, hbeq⟩ := lookupBlob_isSome.mp (inv.blob_present e he)
    rw [lookupBlob_isSome]
    exact ⟨b, List.mem_cons_of_mem _ hb, hbeq⟩

lemma reachable_inv {s : CheckpointStore} (h : Reachable s) : StoreInv s := by
  induction h with
  | init policy => exact inv_empty policy
  | save_ok hr hsave ih => exact inv_save ih hsave
  | delete_step n hr ih => exact inv_delete ih n
  | interrupt p hr ih => exact inv_interrupt ih p

/-! ### The retention configuration is constant along executions -/

lemma save_maxKept {s s' : CheckpointStore} {p : Params} {n : String} {e : IndexEntry}
    (h : save s p n = .ok (s', e)) : s'.maxKept = s.maxKept := by
  obtain ⟨-, hs', -⟩ := save_ok_elim h
  subst hs'
  rfl

lemma delete_maxKept (s : CheckpointStore) (n : String) :
    (delete s n).maxKept = s.maxKept := by
  unfold delete
  cases hf : findEntry s n with
  | none => rfl
  | some d => rfl

lemma interrupt_maxKept (s : CheckpointStore) (p : Params) :
    (interruptedSave s p).maxKept = s.maxKept := rfl

lemma retentionPos_of_eq {s t : CheckpointStore} (h : t.maxKept = s.maxKept)
    (hp : retentionPos t) : retentionPos s := by
  unfold retentionPos at hp ⊢
  rw [← h]
  exact hp

/-! ### Characterizing `delete` -/

lemma delete_of_missing {s : CheckpointStore} {n : String}
    (hf : findEntry s n = none) : delete s n = s := by
  unfold delete
  rw [hf]

lemma delete_of_found {s : CheckpointStore} {n : String} {d : IndexEntry}
    (hf : findEntry s n = some d) :
    delete s n = { s with
      index := s.index.filter (fun e => !(e.name == n))
      blobs := s.blobs.filter (fun b => !(b.1 == d.seqIndex))
      latestName := if s.latestName = some n
        then newestName (s.index.filter (fun e => !(e.name == n)))
        else s.latestName } := by
  unfold delete
  rw [hf]

/-! ### The latest pointer in every reachable state -/

lemma latest_empty (policy : Option Nat) : LatestOk (emptyStore policy) := by
  constructor
  · intro _; rfl
  · intro m hm; exact Option.noConfusion hm

lemma latest_save {s s' : CheckpointStore} {p : Params} {n : String} {e : IndexEntry}
    (inv : StoreInv s) (hpol : retentionPos s) (h : save s p n = .ok (s', e)) :
    LatestOk s' := by
  obtain ⟨hv, hs', -⟩ := save_ok_elim h
  subst hs'
  constructor
  · intro h0
    exact Option.noConfusion h0
  · intro m hm
    have hnm : n = m := Option.some.injEq n m ▸ hm
    subst hnm
    refine ⟨⟨n, s.nextSeq⟩, ?_, rfl, ?_⟩
    · show (⟨n, s.nextSeq⟩ : IndexEntry) ∈ newIndex s n
      rw [newIndex_decomp s n hpol]
      exact List.mem_append.mpr (Or.inr (List.mem_singleton.mpr rfl))
    · intro e2 he2
      have he2' : e2 ∈ newIndex s n := he2
      rcases List.mem_append.mp (newIndex_subset_idx1 he2') with hm2 | hm2
      · have := inv.bounded e2 (mem_replacedIndex.mp hm2).1
        show e2.seqIndex ≤ s.nextSeq
        omega
      · simp only [List.mem_singleton] at hm2
        subst hm2
        exact le_refl _

lemma latest_delete {s : CheckpointStore} (inv : StoreInv s) (hl : LatestOk s) (n : String) :
    LatestOk (delete s n) := by
  cases hf : findEntry s n with
  | none => rw [delete_of_missing hf]; exact hl
  | some d =>
    rw [delete_of_found hf]
    have hsorted : (s.index.filter (fun e => !(e.name == n))).Pairwise
        (fun a b => a.seqIndex < b.seqIndex) :=
      List.Pairwise.sublist (List.filter_sublist _) inv.sorted
    by_cases hln : s.latestName = some n
    · constructor
      · intro h0
        have h0' : newestName (s.index.filter (fun e => !(e.name == n))) = none := by
          have h0x : (if s.latestName = some n
              then newestName (s.index.filter (fun e => !(e.name == n)))
              else s.latestName) = none := h0
          rwa [if_pos hln] at h0x
        exact (newestName_eq_none_iff _).mp h0'
      · intro m hm
        have hm' : newestName (s.index.filter (fun e => !(e.name == n))) = some m := by
          have hmx : (if s.latestName = some n
              then newestName (s.index.filter (fun e => !(e.name == n)))
              else s.latestName) = some m := hm
          rwa [if_pos hln] at hmx
        exact newestName_spec hsorted hm'
    · constructor
      · intro h0
        have h0' : s.latestName = none := by
          have h0x : (if s.latestName = some n
              then newestName (s.index.filter (fun e => !(e.name == n)))
              else s.latestName) = none := h0
          rwa [if_neg hln] at h0x
        show s.index.filter (fun e => !(e.name == n)) = []
        rw [hl.1 h0']
        rfl
      · intro m hm
        have hm' : s.latestName = some m := by
          have hmx : (if s.latestName = some n
              then newestName (s.index.filter (fun e => !(e.name == n)))
              else s.latestName) = some m := hm
          rwa [if_neg hln] at hmx
        have hmn : m ≠ n := by
          intro hco
          exact hln (hco ▸ hm')
        obtain ⟨e, he, hname, hmax⟩ := hl.2 m hm'
        refine ⟨e, ?_, hname, ?_⟩
        · refine List.mem_filter.mpr ⟨he, ?_⟩
          simp [hname, hmn]
        · intro e2 he2
          exact hmax e2 (List.mem_filter.mp he2).1

lemma latest_interrupt {s : CheckpointStore} (hl : LatestOk s) (p : Params) :
    LatestOk (interruptedSave s p) := by
  constructor
  · intro h0
    exact hl.1 h0
  · intro m hm
    exact hl.2 m hm

lemma reachable_latest {s : CheckpointStore} (h : Reachable s) :
    retentionPos s → LatestOk s := by
  induction h with
  | init policy => intro _; exact latest_empty policy
  | save_ok hr hsave ih =>
    intro hpol
    exact latest_save (reachable_inv hr) (retentionPos_of_eq (save_maxKept hsave) hpol) hsave
  | delete_step n hr ih =>
    intro hpol
    exact latest_delete (reachable_inv hr)
      (ih (retentionPos_of_eq (delete_maxKept _ n) hpol)) n
  | interrupt p hr ih =>
    intro hpol
    exact latest_interrupt (ih (retentionPos_of_eq (interrupt_maxKept _ p) hpol)) p

/-! ### Round trip through a successful save -/

lemma save_roundtrip {s s' : CheckpointStore} {p : Params} {n : String} {e : IndexEntry}
    (inv : StoreInv s) (hpol : retentionPos s) (h : save s p n = .ok (s', e)) :
    findEntry s' n = some ⟨n, s.nextSeq⟩ ∧
    lookupBlob s' s.nextSeq = some p ∧
    s'.latestName = some n ∧
    e = ⟨n, s.nextSeq⟩ := by
  obtain ⟨hv, hs', hee⟩ := save_ok_elim h
  subst hs'
  refine ⟨?_, ?_, rfl, hee⟩
  · show (newIndex s n).find? (fun e2 => e2.name == n) = some ⟨n, s.nextSeq⟩
    rw [newIndex_decomp s n hpol]
    rw [find?_append_left_none]
    · exact List.find?_cons_of_pos _ (by simp)
    · intro a ha
      have := (mem_replacedIndex.mp (List.drop_subset _ _ ha)).2
      simp [this]
  · have hnot : s.nextSeq ∉ goneSeqs s n := by
      intro hg
      exact absurd (goneSeqs_lt inv hg) (lt_irrefl _)
    show ((((s.nextSeq, p) :: s.blobs).filter
        (fun b => !(decide (b.1 ∈ goneSeqs s n)))).find?
        (fun b => b.1 == s.nextSeq)).map (fun b => b.2) = some p
    rw [List.filter_cons_of_pos (by simpa using hnot)]
    rw [List.find?_cons_of_pos _ (by simp)]
    rfl

/-! ### Evaluating `load` -/

lemma load_byName_of_found {s : CheckpointStore} {n : String} {e : IndexEntry} {p : Params}
    (hf : findEntry s n = some e) (hb : lookupBlob s e.seqIndex = some p) :
    load s (.byName n) = .ok p := by
  unfold load
  simp only [resolveRef, hf, hb]

lemma load_latest_of_found {s : CheckpointStore} {n : String} {e : IndexEntry} {p : Params}
    (hl : s.latestName = some n) (hf : findEntry s n = some e)
    (hb : lookupBlob s e.seqIndex = some p) :
    load s .latest = .ok p := by
  unfold load
  simp only [resolveRef, hl, hf, hb]

/-! ### Runs of saves -/

lemma saveRun_cons (s : CheckpointStore) (r : String × Params) (rs : List (String × Params))
    (hv : validParams r.2 = true) :
    saveRun s (r :: rs) = saveRun (commitIndex (writeBlob s r.2) r.1) rs := by
  have hsv : save s r.2 r.1 = .ok (commitIndex (writeBlob s r.2) r.1, ⟨r.1, s.nextSeq⟩) := by
    unfold save
    rw [if_pos hv]
  show (match save s r.2 r.1 with
    | .ok (s', _) => saveRun s' rs
    | .error _ => saveRun s rs) = saveRun (commitIndex (writeBlob s r.2) r.1) rs
  rw [hsv]

lemma saveRun_append (as bs : List (String × Params)) :
    ∀ s : CheckpointStore, saveRun s (as ++ bs) = saveRun (saveRun s as) bs := by
  induction as with
  | nil => intro s; rfl
  | cons a t ih =>
    intro s
    show (match save s a.2 a.1 with
      | .ok (s', _) => saveRun s' (t ++ bs)
      | .error _ => saveRun s (t ++ bs)) =
      saveRun (match save s a.2 a.1 with
        | .ok (s', _) => saveRun s' t
        | .error _ => saveRun s t) bs
    cases hs : save s a.2 a.1 with
    | ok pr =>
      cases pr with
      | mk s' e => exact ih s'
    | error err => exact ih s

lemma reachable_saveRun (runs : List (String × Params)) :
    ∀ s : CheckpointStore, Reachable s → Reachable (saveRun s runs) := by
  induction runs with
  | nil => intro s h; exact h
  | cons r t ih =>
    intro s h
    show Reachable (match save s r.2 r.1 with
      | .ok (s', _) => saveRun s' t
      | .error _ => saveRun s t)
    cases hs : save s r.2 r.1 with
    | ok pr =>
      cases pr with
      | mk s' e => exact ih s' (Reachable.save_ok h hs)
    | error err => exact ih s h

lemma saveRun_maxKept (runs : List (String × Params)) :
    ∀ s : CheckpointStore, (saveRun s runs).maxKept = s.maxKept := by
  induction runs with
  | nil => intro s; rfl
  | cons r t ih =>
    intro s
    show (match save s r.2 r.1 with
      | .ok (s', _) => saveRun s' t
      | .error _ => saveRun s t).maxKept = s.maxKept
    cases hs : save s r.2 r.1 with
    | ok pr =>
      cases pr with
      | mk s' e =>
        rw [ih s']
        exact save_maxKept hs
    | error err => exact ih s

lemma saveRun_nextSeq (runs : List (String × Params)) :
    ∀ s : CheckpointStore, (∀ x ∈ runs, validParams x.2 = true) →
      (saveRun s runs).nextSeq = s.nextSeq + runs.length := by
  induction runs with
  | nil => intro s _; rfl
  | cons r t ih =>
    intro s hv
    rw [saveRun_cons s r t (hv r (List.mem_cons_self r t))]
    rw [ih _ (fun x hx => hv x (List.mem_cons_of_mem r hx))]
    show s.nextSeq + 1 + t.length = s.nextSeq + (t.length + 1)
    omega

/-! ### State after a run of distinct-name saves with retention bound K -/

lemma saveRun_empty_state (K : Nat) (hK : 0 < K) :
    ∀ runs : List (String × Params), (runs.map Prod.fst).Nodup →
      (∀ x ∈ runs, validParams x.2 = true) →
      (saveRun (emptyStore (some K)) runs).index =
        (entriesFrom 1 runs).drop (runs.length - K) ∧
      ∀ b ∈ (saveRun (emptyStore (some K)) runs).blobs,
        b.1 ∈ (saveRun (emptyStore (some K)) runs).index.map (fun e => e.seqIndex) := by
  intro runs
  induction runs using List.reverseRecOn with
  | nil =>
    intro _ _
    constructor
    · simp [saveRun, emptyStore, entriesFrom]
    · intro b hb
      simp [saveRun, emptyStore] at hb
  | append_singleton rs r ih =>
    intro hnames hval
    have hnames' : (rs.map Prod.fst).Nodup := by
      rw [List.map_append] at hnames
      exact (List.nodup_append.mp hnames).1
    have hfresh : r.1 ∉ rs.map Prod.fst := by
      rw [List.map_append] at hnames
      intro hmem
      exact (List.nodup_append.mp hnames).2.2 hmem (by simp)
    have hval' : ∀ x ∈ rs, validParams x.2 = true :=
      fun x hx => hval x (List.mem_append.mpr (Or.inl hx))
    have hvr : validParams r.2 = true := hval r (List.mem_append.mpr (Or.inr (by simp)))
    obtain ⟨ihidx, ihblobs⟩ := ih hnames' hval'
    have hmax : (saveRun (emptyStore (some K)) rs).maxKept = some K :=
      saveRun_maxKept rs (emptyStore (some K))
    have hpol : retentionPos (saveRun (emptyStore (some K)) rs) := by
      intro k hk
      rw [hmax] at hk
      have : K = k := Option.some.inj hk
      omega
    have hnext : (saveRun (emptyStore (some K)) rs).nextSeq = rs.length + 1 := by
      rw [saveRun_nextSeq rs _ hval']
      show 1 + rs.length = rs.length + 1
      omega
    have hstep : saveRun (emptyStore (some K)) (rs ++ [r]) =
        commitIndex (writeBlob (saveRun (emptyStore (some K)) rs) r.2) r.1 := by
      rw [saveRun_append rs [r]]
      rw [saveRun_cons _ r [] hvr]
      rfl
    have hrepl : replacedIndex (saveRun (emptyStore (some K)) rs) r.1 =
        (saveRun (emptyStore (some K)) rs).index := by
      apply List.filter_eq_self.mpr
      intro e he
      have hmem : e.name ∈ ((entriesFrom 1 rs).map (fun e2 => e2.name)) := by
        rw [ihidx] at he
        exact List.mem_map.mpr ⟨e, List.drop_subset _ _ he, rfl⟩
      rw [entriesFrom_names] at hmem
      have : e.name ≠ r.1 := by
        intro hco
        exact hfresh (hco ▸ hmem)
      simp [this]
    have hfinal_idx : (saveRun (emptyStore (some K)) (rs ++ [r])).index =
        (entriesFrom 1 (rs ++ [r])).drop ((rs ++ [r]).length - K) := by
      rw [hstep]
      show newIndex (saveRun (emptyStore (some K)) rs) r.1 = _
      rw [newIndex_decomp _ r.1 hpol, hrepl, hmax, hnext]
      rw [entriesFrom_append, List.length_append]
      rw [List.drop_append_of_le_length (by rw [entriesFrom_length]; simp; omega)]
      rw [ihidx, List.drop_drop]
      rw [Nat.add_comm 1 rs.length]
      congr 2
      simp only [keepCount, List.length_drop, entriesFrom_length, List.length_singleton]
      omega
    refine ⟨hfinal_idx, ?_⟩
    intro b hb
    rw [hstep] at hb
    rw [hstep]
    have hb' : b ∈ (((saveRun (emptyStore (some K)) rs).nextSeq, r.2) ::
        (saveRun (emptyStore (some K)) rs).blobs).filter
        (fun b2 => !(decide (b2.1 ∈ goneSeqs (saveRun (emptyStore (some K)) rs) r.1))) := hb
    obtain ⟨hbmem, hbpred⟩ := List.mem_filter.mp hb'
    have hnotgone : b.1 ∉ goneSeqs (saveRun (emptyStore (some K)) rs) r.1 := by
      simpa using hbpred
    show b.1 ∈ (newIndex (saveRun (emptyStore (some K)) rs) r.1).map (fun e => e.seqIndex)
    rcases List.mem_cons.mp hbmem with hhead | htail
    · have hnew : (⟨r.1, (saveRun (emptyStore (some K)) rs).nextSeq⟩ : IndexEntry) ∈
          newIndex (saveRun (emptyStore (some K)) rs) r.1 := by
        rw [newIndex_decomp _ r.1 hpol]
        exact List.mem_append.mpr (Or.inr (by simp))
      refine List.mem_map.mpr ⟨_, hnew, ?_⟩
      rw [hhead]
    · have hseq : b.1 ∈ (saveRun (emptyStore (some K)) rs).index.map (fun e => e.seqIndex) :=
        ihblobs b htail
      by_contra hnot
      exact hnotgone (mem_goneSeqs.mpr ⟨hseq, hnot⟩)

/-! ### Architecture signatures -/

lemma paramKeys_from_sig (p : Params) :
    paramKeys p = (archSignature p).map Prod.fst := by
  unfold paramKeys archSignature
  rw [List.map_map]
  rfl

lemma shapeOf_eq_of_sig {b t : Params} (h : archSignature b = archSignature t)
    (k : ParamKey) : shapeOf b k = shapeOf t k := by
  unfold shapeOf
  rw [h]

lemma sigDiffers_ne {b t : Params} (h : sigDiffers b t) :
    archSignature b ≠ archSignature t := by
  intro heq
  rcases h with ⟨k, hkb, hkt⟩ | ⟨k, hkt, hkb⟩ | ⟨k, u, v, hu, hv, huv⟩
  · rw [paramKeys_from_sig, heq, ← paramKeys_from_sig] at hkb
    exact hkt hkb
  · rw [paramKeys_from_sig, heq, ← paramKeys_from_sig] at hkb
    exact hkb hkt
  · have hs := shapeOf_eq_of_sig heq k
    rw [hu, hv] at hs
    exact huv (Option.some.inj hs)

/-! ### At most one committed entry per name -/

lemma filter_name_length_one {l : List IndexEntry} {n : String}
    (hnodup : (l.map (fun e => e.name)).Nodup) {x : IndexEntry}
    (hx : x ∈ l) (hxn : x.name = n) :
    (l.filter (fun e => e.name == n)).length = 1 := by
  induction l with
  | nil => cases hx
  | cons a t ih =>
    rw [List.map_cons] at hnodup
    obtain ⟨hnotin, hnodup_t⟩ := List.nodup_cons.mp hnodup
    rcases List.mem_cons.mp hx with hxa | hxt
    · subst hxa
      rw [List.filter_cons_of_pos (by simp [hxn])]
      have htnil : t.filter (fun e => e.name == n) = [] := by
        rw [List.filter_eq_nil_iff]
        intro e he
        simp only [beq_iff_eq]
        intro hco
        exact hnotin (List.mem_map.mpr ⟨e, he, hco.trans hxn.symm⟩)
      rw [htnil]
      rfl
    · have hane : a.name ≠ n := by
        intro hco
        exact hnotin (List.mem_map.mpr ⟨x, hxt, hxn.trans hco.symm⟩)
      rw [List.filter_cons_of_neg (by simp [hane])]
      exact ih hnodup_t hxt

/-! ### Concrete data used by the witnesses -/

def demoParams : Params := [("w", ⟨[2], [3, 4]⟩)]

def demoParamsB : Params := [("w", ⟨[2], [5, 6]⟩)]

def demoTarget : Params := [("w", ⟨[3], []⟩)]

def demoStore1 : CheckpointStore :=
  ⟨none, [(1, demoParams)], [⟨"a", 1⟩], some "a", 2⟩

def demoStore2 : CheckpointStore :=
  ⟨none, [(2, demoParamsB)], [⟨"a", 2⟩], some "a", 3⟩

def demoRuns : List (String × Params) := [("a", demoParams), ("b", demoParamsB)]

/-! ### The claims -/

/-- C1: every non-empty parameter mapping `p` saved under a name `n` via
`save` is returned unchanged by a subsequent `load` of that name — the
result is the very list `p`, so the parameter keys, shapes, values and
their order are all preserved exactly (exact equality is within any
floating-point tolerance). -/
theorem save_load_round_trip (s s' : CheckpointStore) (p : Params) (n : String)
    (snap : IndexEntry) (hreach : Reachable s) (hpol : retentionPos s)
    (hsave : save s p n = .ok (s', snap)) :
    load s' (.byName n) = .ok p := by
  obtain ⟨hf, hb, -, -⟩ := save_roundtrip (reachable_inv hreach) hpol hsave
  exact load_byName_of_found hf hb

/-- Witness for C1 at a concrete store and mapping. -/
theorem save_load_round_trip_witness :
    load demoStore1 (.byName "a") = .ok demoParams :=
  save_load_round_trip (emptyStore none) demoStore1 demoParams "a" ⟨"a", 1⟩
    (Reachable.init none) (fun _ h => Option.noConfusion h) rfl

/-- C4: saving twice under the same rendered name leaves exactly one
snapshot retrievable under that name, and loading it returns the second
payload (last-write-wins); the first payload is no longer retrievable
under that name. -/
theorem overwrite_last_write_wins (s s1 s2 : CheckpointStore) (p1 p2 : Params)
    (n : String) (e1 e2 : IndexEntry) (hreach : Reachable s) (hpol : retentionPos s)
    (h1 : save s p1 n = .ok (s1, e1)) (h2 : save s1 p2 n = .ok (s2, e2)) :
    (s2.list.filter (fun e => e.name == n)).length = 1 ∧
    load s2 (.byName n) = .ok p2 := by
  have hreach1 : Reachable s1 := Reachable.save_ok hreach h1
  have hinv1 : StoreInv s1 := reachable_inv hreach1
  have hpol1 : retentionPos s1 := retentionPos_of_eq (save_maxKept h1).symm hpol
  obtain ⟨hf2, hb2, -, -⟩ := save_roundtrip hinv1 hpol1 h2
  have hinv2 : StoreInv s2 := inv_save hinv1 h2
  exact ⟨filter_name_length_one hinv2.names (findEntry_mem hf2) (findEntry_name hf2),
    load_byName_of_found hf2 hb2⟩

/-- Witness for C4: two saves under the name `a`; one entry remains and
it holds the second payload. -/
theorem overwrite_last_write_wins_witness :
    (demoStore2.list.filter (fun e => e.name == "a")).length = 1 ∧
    load demoStore2 (.byName "a") = .ok demoParamsB :=
  overwrite_last_write_wins (emptyStore none) demoStore1 demoStore2 demoParams demoParamsB
    "a" ⟨"a", 1⟩ ⟨"a", 2⟩ (Reachable.init none) (fun _ h => Option.noConfusion h) rfl rfl

/-- C5: when the target model's parameter key set or any parameter shape
differs from the loaded blob, restoring fails with
`architectureMismatch` naming both signatures, and the target model's
parameters are returned entirely unchanged — the check happens before
any value is applied. -/
theorem arch_mismatch_rejected (s : CheckpointStore) (r : SnapshotRef)
    (blob target : Params) (hload : load s r = .ok blob) (hdiff : sigDiffers blob target) :
    restoreW ⟨s, target⟩ r =
      (⟨s, target⟩,
        some (.architectureMismatch (archSignature blob) (archSignature target))) := by
  unfold restoreW
  have hload' : load (World.mk s target).store r = Except.ok blob := hload
  rw [hload']
  show (({ store := s, model := (apply_weights blob target).1 } : World),
      (apply_weights blob target).2) = _
  unfold apply_weights
  rw [if_neg (sigDiffers_ne hdiff)]

/-- Witness for C5: the stored blob has shape `[2]` for key `w`, the
target has shape `[3]`; the restore fails and the target is unchanged. -/
theorem arch_mismatch_rejected_witness :
    restoreW ⟨demoStore1, demoTarget⟩ (.byName "a") =
      (⟨demoStore1, demoTarget⟩,
        some (.architectureMismatch (archSignature demoParams)
          (archSignature demoTarget))) :=
  arch_mismatch_rejected demoStore1 (.byName "a") demoParams demoTarget rfl
    (Or.inr (Or.inr ⟨"w", [2], [3], rfl, rfl, by decide⟩))

/-- C7: in every reachable store state whose retention bound keeps at
least one snapshot, the latest pointer refers to a snapshot currently
present in the index. -/
theorem latest_pointer_present (s : CheckpointStore) (n : String) (hreach : Reachable s)
    (hpol : retentionPos s) (hlatest : s.latestName = some n) :
    (findEntry s n).isSome = true := by
  obtain ⟨e, he, hname, -⟩ := (reachable_latest hreach hpol).2 n hlatest
  unfold findEntry
  rw [List.find?_isSome]
  exact ⟨e, he, by simp [hname]⟩

/-- Witness for C7 at a store reached by one save. -/
theorem latest_pointer_present_witness :
    (findEntry demoStore1 "a").isSome = true :=
  latest_pointer_present demoStore1 "a"
    (Reachable.save_ok (Reachable.init none)
      (show save (emptyStore none) demoParams "a" = .ok (demoStore1, ⟨"a", 1⟩) from rfl))
    (fun _ h => Option.noConfusion h) rfl

/-- C8: `delete` is idempotent — deleting the same name twice leaves the
store exactly as after the first deletion, and (since `delete` is a
total function into stores) neither call produces an error; deleting an
absent name takes the missing-entry branch and is a no-op. -/
theorem delete_idempotent (s : CheckpointStore) (n : String) :
    delete (delete s n) n = delete s n := by
  cases hf : findEntry s n with
  | none => rw [delete_of_missing hf, delete_of_missing hf]
  | some d =>
    have hnone : findEntry (delete s n) n = none := by
      rw [delete_of_found hf]
      show (s.index.filter (fun e => !(e.name == n))).find? (fun e => e.name == n) = none
      rw [List.find?_eq_none]
      intro e he
      have := (List.mem_filter.mp he).2
      simpa using this
    rw [delete_of_missing hnone]

/-- C2: with retention bound `max_kept = K`, after a run of `M > K`
successful saves under distinct names starting from a fresh store,
`list()` returns exactly the K most recently created entries (in
creation order, with sequence indices `M-K+1 .. M`), and every evicted
snapshot has lost both its index entry and its blob; both removals
happen in the same atomic commit as the save that triggered them. -/
theorem retention_keeps_most_recent (K : Nat) (runs : List (String × Params))
    (hK : 0 < K) (hnames : (runs.map Prod.fst).Nodup)
    (hval : ∀ x ∈ runs, validParams x.2 = true) (hM : K < runs.length) :
    (saveRun (emptyStore (some K)) runs).list =
      (entriesFrom 1 runs).drop (runs.length - K) ∧
    (saveRun (emptyStore (some K)) runs).list.length = K ∧
    ((runs.map Prod.fst).take (runs.length - K)).all
      (fun nm => (findEntry (saveRun (emptyStore (some K)) runs) nm).isNone) = true ∧
    (List.range (runs.length - K)).all
      (fun i => (lookupBlob (saveRun (emptyStore (some K)) runs) (i + 1)).isNone) = true := by
  obtain ⟨hidx, hblobs⟩ := saveRun_empty_state K hK runs hnames hval
  refine ⟨hidx, ?_, ?_, ?_⟩
  · show (saveRun (emptyStore (some K)) runs).index.length = K
    rw [hidx, List.length_drop, entriesFrom_length]
    omega
  · rw [List.all_eq_true]
    intro nm hnm
    rw [Option.isNone_iff_eq_none]
    unfold findEntry
    rw [List.find?_eq_none]
    intro e he
    rw [hidx] at he
    have hename : e.name ∈ (runs.map Prod.fst).drop (runs.length - K) := by
      have h1 : e.name ∈ ((entriesFrom 1 runs).drop (runs.length - K)).map
          (fun e2 => e2.name) := List.mem_map.mpr ⟨e, he, rfl⟩
      rw [List.map_drop, entriesFrom_names] at h1
      exact h1
    have hdisj : ((runs.map Prod.fst).take (runs.length - K)).Disjoint
        ((runs.map Prod.fst).drop (runs.length - K)) := by
      have hn2 := hnames
      rw [← List.take_append_drop (runs.length - K) (runs.map Prod.fst)] at hn2
      exact (List.nodup_append.mp hn2).2.2
    simp only [beq_iff_eq]
    intro hco
    exact hdisj hnm (hco ▸ hename)
  · rw [List.all_eq_true]
    intro i hi
    rw [List.mem_range] at hi
    rw [Option.isNone_iff_eq_none]
    unfold lookupBlob
    rw [Option.map_eq_none']
    rw [List.find?_eq_none]
    intro b hb
    have hseq := hblobs b hb
    rw [hidx, entriesFrom_drop] at hseq
    obtain ⟨e, he, heq⟩ := List.mem_map.mp hseq
    have hge := mem_entriesFrom_seq_ge he
    simp only [beq_iff_eq]
    intro hco
    omega

/-- Witness for C2: bound 1, two saves with distinct names. -/
theorem retention_keeps_most_recent_witness :
    (saveRun (emptyStore (some 1)) demoRuns).list =
      (entriesFrom 1 demoRuns).drop (demoRuns.length - 1) ∧
    (saveRun (emptyStore (some 1)) demoRuns).list.length = 1 ∧
    ((demoRuns.map Prod.fst).take (demoRuns.length - 1)).all
      (fun nm => (findEntry (saveRun (emptyStore (some 1)) demoRuns) nm).isNone) = true ∧
    (List.range (demoRuns.length - 1)).all
      (fun i => (lookupBlob (saveRun (emptyStore (some 1)) demoRuns) (i + 1)).isNone)
      = true :=
  retention_keeps_most_recent 1 demoRuns (by decide) (by decide) (by decide) (by decide)

/-- C3: after a run of saves producing sequence indices `1 .. M` on a
fresh store, loading with the latest sentinel returns exactly the
payload of the save with sequence index `M`; that snapshot is present in
the index under its name with sequence index `M`, and `M` is the highest
sequence index in the index. -/
theorem load_latest_returns_newest (policy : Option Nat) (rs : List (String × Params))
    (r : String × Params) (hpol : ∀ k, policy = some k → 0 < k)
    (hval : ∀ x ∈ rs ++ [r], validParams x.2 = true) :
    load (saveRun (emptyStore policy) (rs ++ [r])) .latest = .ok r.2 ∧
    findEntry (saveRun (emptyStore policy) (rs ++ [r])) r.1 =
      some ⟨r.1, rs.length + 1⟩ ∧
    ((saveRun (emptyStore policy) (rs ++ [r])).list.all
      (fun e2 => decide (e2.seqIndex ≤ rs.length + 1))) = true := by
  have hreach_prev : Reachable (saveRun (emptyStore policy) rs) :=
    reachable_saveRun rs _ (Reachable.init policy)
  have hinv : StoreInv (saveRun (emptyStore policy) rs) := reachable_inv hreach_prev
  have hmax : (saveRun (emptyStore policy) rs).maxKept = policy :=
    saveRun_maxKept rs (emptyStore policy)
  have hpol' : retentionPos (saveRun (emptyStore policy) rs) := by
    intro k hk
    rw [hmax] at hk
    exact hpol k hk
  have hval' : ∀ x ∈ rs, validParams x.2 = true :=
    fun x hx => hval x (List.mem_append.mpr (Or.inl hx))
  have hvr : validParams r.2 = true := hval r (by simp)
  have hnext : (saveRun (emptyStore policy) rs).nextSeq = rs.length + 1 := by
    rw [saveRun_nextSeq rs _ hval']
    show 1 + rs.length = rs.length + 1
    omega
  have hstep : saveRun (emptyStore policy) (rs ++ [r]) =
      commitIndex (writeBlob (saveRun (emptyStore policy) rs) r.2) r.1 := by
    rw [saveRun_append rs [r]]
    rw [saveRun_cons _ r [] hvr]
    rfl
  have hsave : save (saveRun (emptyStore policy) rs) r.2 r.1 =
      .ok (commitIndex (writeBlob (saveRun (emptyStore policy) rs) r.2) r.1,
        ⟨r.1, (saveRun (emptyStore policy) rs).nextSeq⟩) := by
    unfold save
    rw [if_pos hvr]
  obtain ⟨hf, hb, hlast, -⟩ := save_roundtrip hinv hpol' hsave
  refine ⟨?_, ?_, ?_⟩
  · rw [hstep]
    exact load_latest_of_found hlast hf hb
  · rw [hstep, ← hnext]
    exact hf
  · rw [hstep]
    rw [List.all_eq_true]
    intro e2 he2
    have hinv2 := inv_save hinv hsave
    have hbd := hinv2.bounded e2 he2
    have h2 : (commitIndex (writeBlob (saveRun (emptyStore policy) rs) r.2) r.1).nextSeq =
        (saveRun (emptyStore policy) rs).nextSeq + 1 := rfl
    simp only [decide_eq_true_eq]
    omega

/-- Witness for C3: two saves; loading latest yields the second payload,
found at sequence index 2. -/
theorem load_latest_returns_newest_witness :
    load (saveRun (emptyStore none) ([("a", demoParams)] ++ [("b", demoParamsB)])) .latest =
      .ok demoParamsB ∧
    findEntry (saveRun (emptyStore none) ([("a", demoParams)] ++ [("b", demoParamsB)]))
      "b" = some ⟨"b", [("a", demoParams)].length + 1⟩ ∧
    ((saveRun (emptyStore none) ([("a", demoParams)] ++ [("b", demoParamsB)])).list.all
      (fun e2 => decide (e2.seqIndex ≤ [("a", demoParams)].length + 1))) = true :=
  load_latest_returns_newest none [("a", demoParams)] ("b", demoParamsB)
    (fun _ h => Option.noConfusion h) (by decide)

/-- C6: a save interrupted after its blob write but before its index
update is invisible: `list()` is unchanged (so it never includes the
interrupted snapshot), and every `load` — by name or latest — returns
exactly what it returned before the interrupted save; no snapshot is
observable in the pending state. -/
theorem interrupted_save_invisible (s : CheckpointStore) (p : Params) (r : SnapshotRef)
    (hreach : Reachable s) :
    (interruptedSave s p).list = s.list ∧
    load (interruptedSave s p) r = load s r := by
  have inv := reachable_inv hreach
  refine ⟨rfl, ?_⟩
  unfold load
  have hres : resolveRef (interruptedSave s p) r = resolveRef s r := by
    cases r <;> rfl
  rw [hres]
  cases hr : resolveRef s r with
  | none => rfl
  | some n =>
    show (match findEntry s n with
      | none => Except.error (StoreError.snapshotNotFound n)
      | some e =>
        match lookupBlob (interruptedSave s p) e.seqIndex with
        | none => Except.error StoreError.ioFailure
        | some q => Except.ok q) =
      (match findEntry s n with
      | none => Except.error (StoreError.snapshotNotFound n)
      | some e =>
        match lookupBlob s e.seqIndex with
        | none => Except.error StoreError.ioFailure
        | some q => Except.ok q)
    cases hf : findEntry s n with
    | none => rfl
    | some e =>
      show (match lookupBlob (interruptedSave s p) e.seqIndex with
        | none => Except.error StoreError.ioFailure
        | some q => Except.ok q) =
        (match lookupBlob s e.seqIndex with
        | none => Except.error StoreError.ioFailure
        | some q => Except.ok q)
      have hlb : lookupBlob (interruptedSave s p) e.seqIndex = lookupBlob s e.seqIndex := by
        have hlt : e.seqIndex < s.nextSeq := inv.bounded e (findEntry_mem hf)
        show (((s.nextSeq, p) :: s.blobs).find? (fun b => b.1 == e.seqIndex)).map
            (fun b => b.2) =
          (s.blobs.find? (fun b => b.1 == e.seqIndex)).map (fun b => b.2)
        rw [List.find?_cons_of_neg]
        simp
        omega
      rw [hlb]

/-- Witness for C6 at a store reached by one committed save. -/
theorem interrupted_save_invisible_witness :
    (interruptedSave demoStore1 demoParamsB).list = demoStore1.list ∧
    load (interruptedSave demoStore1 demoParamsB) .latest = load demoStore1 .latest :=
  interrupted_save_invisible demoStore1 demoParamsB .latest
    (Reachable.save_ok (Reachable.init none)
      (show save (emptyStore none) demoParams "a" = .ok (demoStore1, ⟨"a", 1⟩) from rfl))

/-- C9: `create_model` always builds the same architecture — the same
parameter keys and shapes (784×512 kernel and 512 bias for the first
Dense layer, 512×10 kernel and 10 bias for the second; the Dropout layer
has no parameters), 407050 scalar parameters in total, regardless of the
random initialization — so weights taken from one instance apply to any
other instance without an architecture mismatch. -/
theorem create_model_fixed_architecture (seed1 seed2 : Int) :
    archSignature (create_model seed1) = archSignature (create_model seed2) ∧
    archParamCount (archSignature (create_model seed1)) = 407050 ∧
    apply_weights (create_model seed1) (create_model seed2) = (create_model seed1, none) := by
  have h1 : archSignature (create_model seed1) = archSignature (create_model seed2) := rfl
  refine ⟨h1, rfl, ?_⟩
  unfold apply_weights
  rw [if_pos h1]

/-- C10: `load` (with the subsequent application to the target model) is
read-only on the store: the store component of the world is unchanged,
and repeating the same restore from the resulting world gives exactly
the same result — the same parameter mapping or the same error. -/
theorem load_is_read_only (w : World) (r : SnapshotRef) :
    ((restoreW w r).1).store = w.store ∧
    restoreW ((restoreW w r).1) r = restoreW w r := by
  cases hl : load w.store r with
  | error e =>
    have h1 : restoreW w r = (w, some e) := by
      unfold restoreW
      rw [hl]
    rw [h1]
    exact ⟨rfl, h1⟩
  | ok blob =>
    by_cases hsig : archSignature blob = archSignature w.model
    · have h1 : restoreW w r = (⟨w.store, blob⟩, none) := by
        unfold restoreW
        rw [hl]
        show (({ store := w.store, model := (apply_weights blob w.model).1 } : World),
            (apply_weights blob w.model).2) = _
        unfold apply_weights
        rw [if_pos hsig]
      rw [h1]
      refine ⟨rfl, ?_⟩
      show restoreW ⟨w.store, blob⟩ r = (⟨w.store, blob⟩, none)
      have hl2 : load (World.mk w.store blob).store r = Except.ok blob := hl
      unfold restoreW
      rw [hl2]
      show (({ store := w.store, model := (apply_weights blob blob).1 } : World),
          (apply_weights blob blob).2) = _
      unfold apply_weights
      rw [if_pos rfl]
    · have h1 : restoreW w r =
          (w, some (.architectureMismatch (archSignature blob) (archSignature w.model))) := by
        unfold restoreW
        rw [hl]
        show (({ store := w.store, model := (apply_weights blob w.model).1 } : World),
            (apply_weights blob w.model).2) = _
        unfold apply_weights
        rw [if_neg hsig]
      rw [h1]
      exact ⟨rfl, h1⟩
